import Mathlib

/-!
Verification of the colcon-core package-descriptor / dependency-walker model
(`src/colcon_core/package_descriptor.py`) and the console start/end event
handler (`src/colcon_core/event_handler/console_start_end.py`).

The Python code is shallowly embedded: Python sets of dependency entries are
lists without duplicate names, dicts are association lists, the mutation of
`self.dependencies` performed by `defaultdict.__getitem__` is made explicit by
returning an updated descriptor, exceptions become `Except`, and the
unbounded recursion of the dependency cache is indexed by fuel, where an
`outOfFuel` result for every fuel amount witnesses nontermination of the
unfueled Python recursion.
-/

namespace ColconCore

/-- Modelled from the spec: `colcon_core/dependency_descriptor.py` is not part
of the sources under review. Per the spec, a `DependencyDescriptor` is an
immutable value identifying a dependency by `name` plus optional key-value
`metadata`; equality and hashing are based on the name only, so a descriptor
compares equal to the bare name string. -/
structure DependencyDescriptor where
  name : String
  metadata : List (String × String)
deriving DecidableEq

/-- An entry of a `dependencies` category set: either a bare name string or a
typed `DependencyDescriptor` (the Python code stores both). -/
inductive DepEntry where
  | bare (s : String)
  | typed (d : DependencyDescriptor)
deriving DecidableEq

/-- The name under which an entry takes part in set membership (equality of a
`DependencyDescriptor` with a string is by name). -/
def DepEntry.depName : DepEntry → String
  | .bare s => s
  | .typed d => d.name

/-- The coercion performed by `get_dependencies` on its result:
`DependencyDescriptor(d) if not isinstance(d, DependencyDescriptor) else d`. -/
def DepEntry.coerce : DepEntry → DependencyDescriptor
  | .bare s => { name := s, metadata := [] }
  | .typed d => d

/-- `PackageDescriptor.__init__` stores `Path(str(path))`; the only piece of
`pathlib` normalization modelled here is that the empty string becomes the
path `.` (so a descriptor always holds some path object). -/
def pathOfString (s : String) : String :=
  if s = "" then "." else s

/-- A `PackageDescriptor`: `path`, `type`, `name`, per-category dependency
sets, `hooks` and `metadata` (`__slots__` of the Python class). `type` and
`name` start out as `None`, hence `Option String`. -/
structure PackageDescriptor where
  path : String
  type : Option String
  name : Option String
  dependencies : List (String × List DepEntry)
  hooks : List String
  metadata : List (String × String)
deriving DecidableEq

/-- `PackageDescriptor.__init__(path)`: stores the path, leaves every other
slot empty (`dependencies` is an empty `defaultdict(set)`). -/
def PackageDescriptor.ofPath (path : String) : PackageDescriptor :=
  { path := pathOfString path
    type := none
    name := none
    dependencies := []
    hooks := []
    metadata := [] }

/-- Python truthiness of an optional string slot: `None` and the empty string
are falsy, any other string is truthy. -/
def optStrTruthy : Option String → Bool
  | none => false
  | some s => !(s == "")

/-- Python truthiness of a `pathlib.Path` object: `Path` defines neither
`__bool__` nor `__len__`, so every path object is truthy (including
`Path("")`, which is the path `.`). -/
def pathObjTruthy (_ : String) : Bool :=
  true

/-- `PackageDescriptor.identifies_package`: `self.path and self.type and
self.name`, as a truthiness value. -/
def PackageDescriptor.identifies_package (p : PackageDescriptor) : Bool :=
  pathObjTruthy p.path && optStrTruthy p.type && optStrTruthy p.name

/-- Membership of a name in a Python set of dependency entries (both bare
strings and typed descriptors compare by name). -/
def depNameMem (s : List DepEntry) (n : String) : Bool :=
  s.any (fun e => e.depName == n)

/-- Adding one entry to a Python set of dependency entries: a no-op when an
entry of the same name is already present (the existing element is kept). -/
def addEntry (s : List DepEntry) (e : DepEntry) : List DepEntry :=
  if depNameMem s e.depName then s else s ++ [e]

/-- Python set union `s |= t` over dependency entries, keeping the elements of
`s` for names present in both. -/
def unionEntries (s t : List DepEntry) : List DepEntry :=
  t.foldl addEntry s

/-- The names of the entries of a dependency set. -/
def depNames (s : List DepEntry) : List String :=
  s.map DepEntry.depName

/-- Reading `self.dependencies[category]` without the defaultdict side effect:
the category set, or the empty set for an absent key. -/
def catDeps (m : List (String × List DepEntry)) (cat : String) : List DepEntry :=
  (m.lookup cat).getD []

/-- Reading `self.dependencies[category]` on a `defaultdict(set)`: a missing
key is inserted with a fresh empty set (Python dicts append new keys in
insertion order), and the read value is returned alongside the updated dict. -/
def dgetDefault (m : List (String × List DepEntry)) (cat : String) :
    List (String × List DepEntry) × List DepEntry :=
  match m.lookup cat with
  | some s => (m, s)
  | none => (m ++ [(cat, [])], [])

/-- Lexicographic comparison of character lists by code point, the order
`sorted` uses on Python strings. -/
def lexLe : List Char → List Char → Bool
  | [], _ => true
  | _ :: _, [] => false
  | x :: xs, y :: ys =>
    if x.toNat < y.toNat then true
    else if y.toNat < x.toNat then false
    else lexLe xs ys

/-- String comparison by code points. -/
def strLeB (a b : String) : Bool :=
  lexLe a.data b.data

/-- Insertion of a string into a sorted list of strings. -/
def insortStr (x : String) : List String → List String
  | [] => [x]
  | y :: ys => if strLeB x y then x :: y :: ys else y :: insortStr x ys

/-- Python `sorted` on a list of strings, as insertion sort. -/
def sortStrings : List String → List String
  | [] => []
  | x :: xs => insortStr x (sortStrings xs)

/-- The categories `get_dependencies` iterates over: all declared categories
when `categories is None`, the given ones otherwise. -/
def requestedCategories (p : PackageDescriptor) : Option (List String) → List String
  | none => p.dependencies.map Prod.fst
  | some l => l

/-- One iteration of the loop in `get_dependencies`:
`dependencies |= self.dependencies[category]`, threading the `defaultdict`
state (reading a missing category inserts an empty set). -/
def gdStep (st : List (String × List DepEntry) × List DepEntry) (cat : String) :
    List (String × List DepEntry) × List DepEntry :=
  let (m, acc) := st
  let (m2, s) := dgetDefault m cat
  (m2, unionEntries acc s)

/-- The assertion condition of `get_dependencies`: `self.name` occurs among
the collected dependency entries. `None` is never a member of a set of
strings and descriptors. -/
def selfNameIn (name : Option String) (acc : List DepEntry) : Bool :=
  match name with
  | some n => depNameMem acc n
  | none => false

/-- `PackageDescriptor.get_dependencies(*, categories=None)`. With
`categories=None` all declared categories are used; the categories are
iterated in sorted order; bare strings in the result are coerced to
`DependencyDescriptor`. The call raises `AssertionError` (here `.error ()`)
when the package name occurs among the names of the collected dependencies.
The returned descriptor carries the `defaultdict` mutation performed by
reading missing categories; it is paired with the result because the Python
method mutates `self` before the assertion is evaluated. -/
def PackageDescriptor.get_dependencies (p : PackageDescriptor)
    (categories : Option (List String)) :
    PackageDescriptor × Except Unit (List DependencyDescriptor) :=
  let folded :=
    (sortStrings (requestedCategories p categories)).foldl gdStep (p.dependencies, [])
  let p2 := { p with dependencies := folded.1 }
  if selfNameIn p.name folded.2 then (p2, .error ())
  else (p2, .ok (folded.2.map DepEntry.coerce))

/-- `PackageDescriptor.__eq__`, parameterized by the filesystem: `rp` maps a
path string to its `os.path.realpath` resolution. Equality requires matching
`(type, name)` and then literally equal paths, falling back to equal real
paths. -/
def PackageDescriptor.eqPy (rp : String → String) (a b : PackageDescriptor) : Bool :=
  if (a.type, a.name) ≠ (b.type, b.name) then false
  else if a.path = b.path then true
  else rp a.path = rp b.path

/-- `PackageDescriptor.__hash__` hashes the tuple `(self.type, self.name)`;
the tuple itself is the model of the hash input, so equal tuples have equal
Python hashes. -/
def PackageDescriptor.hashKey (p : PackageDescriptor) :
    Option String × Option String :=
  (p.type, p.name)

/-- A `DependencyWalker`: the descriptor universe and the categories used for
the recursive expansion. `descriptors_by_name` and `dependency_cache` are
derived from these (the cache is threaded through `wrun` below). -/
structure DependencyWalker where
  descriptors : List PackageDescriptor
  categories : Option (List String)

/-- `self.descriptors_by_name[key]`: the descriptors of the universe whose
name equals the key (names are `Option String`; a `None` name never matches a
string key). A key is "known" exactly when this list is nonempty. -/
def DependencyWalker.descriptors_by_name (w : DependencyWalker) (key : String) :
    List PackageDescriptor :=
  w.descriptors.filter (fun d => d.name == some key)

/-- Adding one name to a Python set of name strings. -/
def addName (s : List String) (x : String) : List String :=
  if x ∈ s then s else s ++ [x]

/-- Python set union (`update`) over name strings. -/
def unionNames (s t : List String) : List String :=
  t.foldl addName s

/-- The walker's `dependency_cache`: dependency name to resolved closure. -/
abbrev DependencyCache := List (String × List String)

/-- Failure of a fueled walker run: `outOfFuel` marks an execution whose
Python counterpart is still recursing after the modelled call depth, and
`assertionError` propagates the `AssertionError` of `get_dependencies`. -/
inductive WalkErr where
  | outOfFuel
  | assertionError
deriving DecidableEq

/-- The two loops of the walker, as one small-step task so the recursion is
structural in the fuel: `.get deps acc` is the loop of
`get_recursive_dependencies` accumulating `total_dependency_set`, and
`.missing ds dset` is the loop of `DependencyCache.__missing__` over the
descriptors registered for the missing key, accumulating `dependency_set`. -/
inductive WalkTask where
  | get (deps : List String) (acc : List String)
  | missing (ds : List PackageDescriptor) (dset : List String)

/-- The fueled execution of `DependencyWalker.get_recursive_dependencies` and
`DependencyCache.__missing__`. Every step consumes one unit of fuel; the
result of a run that returns `.ok` is independent of the fuel amount.
Mirroring the source, `__missing__` stores `self[key] = dependency_set` only
after the recursive expansion for `key` has returned, so a re-entrant request
for `key` (a dependency cycle) finds the cache still empty. -/
def wrun (w : DependencyWalker) :
    Nat → DependencyCache → WalkTask → Except WalkErr (DependencyCache × List String)
  | 0, _, _ => .error .outOfFuel
  | _ + 1, cache, .get [] acc => .ok (cache, acc)
  | fuel + 1, cache, .get (dep :: rest) acc =>
    match cache.lookup dep with
    | some v => wrun w fuel cache (.get rest (unionNames acc v))
    | none =>
      if w.descriptors_by_name dep = [] then
        wrun w fuel ((dep, []) :: cache) (.get rest (unionNames acc []))
      else
        match wrun w fuel cache (.missing (w.descriptors_by_name dep) [dep]) with
        | .error e => .error e
        | .ok (c2, dset) =>
          wrun w fuel ((dep, dset) :: c2) (.get rest (unionNames acc dset))
  | _ + 1, cache, .missing [] dset => .ok (cache, dset)
  | fuel + 1, cache, .missing (d :: ds) dset =>
    match (d.get_dependencies w.categories).2 with
    | .error _ => .error .assertionError
    | .ok deps =>
      match wrun w fuel cache (.get (deps.map DependencyDescriptor.name) []) with
      | .error e => .error e
      | .ok (c2, rd) => wrun w fuel c2 (.missing ds (unionNames dset rd))

/-- `DependencyWalker.get_recursive_dependencies(*dependency_descriptors)`:
the dependencies are looked up by name (`DependencyDescriptor` hashes and
compares as its name string), the per-name closures are unioned, and the
cache is threaded. -/
def DependencyWalker.get_recursive_dependencies (w : DependencyWalker)
    (fuel : Nat) (cache : DependencyCache) (deps : List String) :
    Except WalkErr (DependencyCache × List String) :=
  wrun w fuel cache (.get deps [])

/-- The names of the direct dependencies `__missing__` fetches for one
descriptor, restricted to the walker's categories (empty when the fetch
raises). -/
def DependencyWalker.depNamesOf (w : DependencyWalker) (d : PackageDescriptor) :
    List String :=
  match (d.get_dependencies w.categories).2 with
  | .ok l => l.map DependencyDescriptor.name
  | .error _ => []

/-- The specification-side dependency edge: `b` is a direct dependency (in
the walker's categories) of some descriptor registered under `a`, and `b` is
itself a known package name. -/
def wstep (w : DependencyWalker) (a b : String) : Prop :=
  (∃ d, d ∈ w.descriptors_by_name a ∧ b ∈ w.depNamesOf d) ∧
    w.descriptors_by_name b ≠ []

/-- The specification-side closure: `x` belongs to the recursive dependency
closure of the known name `n` when `x` is reachable from `n` along dependency
edges between known packages. -/
def ReachP (w : DependencyWalker) (n x : String) : Prop :=
  w.descriptors_by_name n ≠ [] ∧ Relation.ReflTransGen (wstep w) n x

/-- The cache invariant maintained by the walker: every cached entry holds
exactly the reachable closure of its key. -/
def CacheInv (w : DependencyWalker) (cache : DependencyCache) : Prop :=
  ∀ k v, cache.lookup k = some v → ∀ x, x ∈ v ↔ ReachP w k x

/-- The result code carried by a `JobEnded` event: an integer, or the
`SIGINT_RESULT` sentinel (modelled from the spec: `colcon_core.subprocess`
is not part of the sources under review; the sentinel is a reserved truthy
value distinct from every integer). -/
inductive ResultCode where
  | code (n : Int)
  | sigintResult
deriving DecidableEq

/-- Python truthiness of a result code: `not data.rc` holds exactly for the
integer zero (the sentinel is a nonempty value, hence truthy). -/
def ResultCode.falsy : ResultCode → Bool
  | .code n => n == 0
  | .sigintResult => false

/-- `data.rc == SIGINT_RESULT` (an integer never equals the sentinel). -/
def ResultCode.isSigint : ResultCode → Bool
  | .code _ => false
  | .sigintResult => true

/-- `str(data.rc)` as used in the `Failed` message. -/
def ResultCode.display : ResultCode → String
  | .code n => toString n
  | .sigintResult => "SIGINT"

/-- The two event types the handler reacts to (`JobStarted` / `JobEnded`). -/
inductive JobEvent where
  | started (identifier : String)
  | ended (identifier : String) (rc : ResultCode)

/-- The two output streams (`sys.stdout` / `sys.stderr`). -/
inductive OutChannel where
  | stdout
  | stderr
deriving DecidableEq

/-- One printed line: its stream, its text, and whether the print was
flushed. -/
structure OutLine where
  channel : OutChannel
  text : String
  flushed : Bool
deriving DecidableEq

/-- The handler state: `self._start_times`, job identifier to start time.
Times are modelled in hundredths of a second so that the `{duration:.2f}`
format is exact. -/
structure ConsoleStartEndEventHandler where
  start_times : List (String × Nat)
deriving DecidableEq

/-- Python dict assignment `self._start_times[identifier] = time`: overwrite
in place when present, append otherwise. -/
def assocSet (m : List (String × Nat)) (k : String) (v : Nat) :
    List (String × Nat) :=
  match m.lookup k with
  | some _ => m.map (fun kv => if kv.1 = k then (k, v) else kv)
  | none => m ++ [(k, v)]

/-- Two-digit zero-padded fraction. -/
def pad2 (n : Nat) : String :=
  if n < 10 then "0" ++ toString n else toString n

/-- Rendering of a duration of `centis` hundredths of a second with two
decimal places, as `{duration:.2f}` does. -/
def fmtDuration2 (centis : Nat) : String :=
  toString (centis / 100) ++ "." ++ pad2 (centis % 100)

/-- `ConsoleStartEndEventHandler.__call__`. A start event prints the
`Starting` line (flushed) and records the current time; an end event first
looks up the start time (`KeyError`, modelled `.error ()`, when the
identifier was never started), then classifies the result code: falsy is
`Finished` with the duration on stdout, the `SIGINT` sentinel is `Aborted`
on stdout, and any other code is `Failed` on stderr. -/
def handlerCall (h : ConsoleStartEndEventHandler) (now : Nat) (ev : JobEvent) :
    Except Unit (ConsoleStartEndEventHandler × List OutLine) :=
  match ev with
  | .started identifier =>
    .ok ({ start_times := assocSet h.start_times identifier now },
      [{ channel := .stdout, text := "Starting >>> " ++ identifier, flushed := true }])
  | .ended identifier rc =>
    match h.start_times.lookup identifier with
    | none => .error ()
    | some t =>
      let duration := now - t
      if rc.falsy then
        .ok (h, [{ channel := .stdout
                   text := "Finished <<< " ++ identifier ++ " [" ++ fmtDuration2 duration ++ "s]"
                   flushed := true }])
      else if rc.isSigint then
        .ok (h, [{ channel := .stdout
                   text := "Aborted  <<< " ++ identifier
                   flushed := true }])
      else
        .ok (h, [{ channel := .stderr
                   text := "Failed   <<< " ++ identifier ++ "\t [ Exited with code " ++ rc.display ++ " ]"
                   flushed := true }])

/-- Fixture: package `A` depending on `B` in category `run`. -/
def cdescA : PackageDescriptor :=
  { path := "/ws/A"
    type := some "t"
    name := some "A"
    dependencies := [("run", [.bare "B"])]
    hooks := []
    metadata := [] }

/-- Fixture: package `B` depending back on `A` in category `run`. -/
def cdescB : PackageDescriptor :=
  { path := "/ws/B"
    type := some "t"
    name := some "B"
    dependencies := [("run", [.bare "A"])]
    hooks := []
    metadata := [] }

/-- Fixture: a walker over the dependency cycle `A -> B -> A` with `run` as
the recursive category. -/
def cyclicWalker : DependencyWalker :=
  { descriptors := [cdescA, cdescB], categories := some ["run"] }

/-- Fixture: package `P` depending on known `Q` and unknown `X`. -/
def cdescP : PackageDescriptor :=
  { path := "/ws/P"
    type := some "t"
    name := some "P"
    dependencies := [("run", [.bare "Q", .bare "X"])]
    hooks := []
    metadata := [] }

/-- Fixture: package `Q` with no dependencies. -/
def cdescQ : PackageDescriptor :=
  { path := "/ws/Q"
    type := some "t"
    name := some "Q"
    dependencies := [("run", [])]
    hooks := []
    metadata := [] }

/-- Fixture: an acyclic walker over `P -> Q` where `X` stays unknown. -/
def chainWalker : DependencyWalker :=
  { descriptors := [cdescP, cdescQ], categories := some ["run"] }

/-- Fixture: package `M` with a bare dependency in category `run` and a typed
one in category `build`. -/
def cdescM : PackageDescriptor :=
  { path := "/ws/M"
    type := some "t"
    name := some "M"
    dependencies := [("run", [.bare "b"]), ("build", [.typed ⟨"c", [("k", "v")]⟩])]
    hooks := []
    metadata := [] }

theorem mem_addName {s : List String} {x y : String} :
    y ∈ addName s x ↔ y ∈ s ∨ y = x := by
  unfold addName
  split
  · rename_i h
    constructor
    · tauto
    · rintro (hy | rfl)
      · exact hy
      · exact h
  · simp [List.mem_append]

theorem mem_unionNames : ∀ (t s : List String) (y : String),
    y ∈ unionNames s t ↔ y ∈ s ∨ y ∈ t := by
  intro t
  induction t with
  | nil => simp [unionNames]
  | cons a t ih =>
    intro s y
    have h0 : unionNames s (a :: t) = unionNames (addName s a) t := rfl
    rw [h0, ih, mem_addName, List.mem_cons]
    tauto

theorem unionNames_nil (s : List String) : unionNames s [] = s := rfl

theorem depNameMem_iff {s : List DepEntry} {n : String} :
    depNameMem s n = true ↔ n ∈ depNames s := by
  simp [depNameMem, depNames, List.any_eq_true, List.mem_map]

theorem mem_depNames_addEntry {s : List DepEntry} {e : DepEntry} {n : String} :
    n ∈ depNames (addEntry s e) ↔ n ∈ depNames s ∨ n = e.depName := by
  by_cases h : depNameMem s e.depName
  · rw [depNameMem_iff] at h
    simp [addEntry, depNameMem_iff.2 h]
    intro he
    rw [he]
    tauto
  · have h2 : depNameMem s e.depName = false := by
      simpa using h
    simp [addEntry, h2, depNames]

theorem depNames_cons (a : DepEntry) (t : List DepEntry) :
    depNames (a :: t) = a.depName :: depNames t := rfl

theorem mem_depNames_unionEntries : ∀ (t s : List DepEntry) (n : String),
    n ∈ depNames (unionEntries s t) ↔ n ∈ depNames s ∨ n ∈ depNames t := by
  intro t
  induction t with
  | nil => simp [unionEntries, depNames]
  | cons a t ih =>
    intro s n
    have h0 : unionEntries s (a :: t) = unionEntries (addEntry s a) t := rfl
    rw [h0, ih, mem_depNames_addEntry, depNames_cons, List.mem_cons]
    tauto

theorem mem_addEntry_elim {s : List DepEntry} {a e : DepEntry} :
    e ∈ addEntry s a → e ∈ s ∨ e = a := by
  by_cases h : depNameMem s a.depName
  · simp [addEntry, h]
    tauto
  · simp [addEntry, h]

theorem mem_unionEntries_elim : ∀ (t s : List DepEntry) (e : DepEntry),
    e ∈ unionEntries s t → e ∈ s ∨ e ∈ t := by
  intro t
  induction t with
  | nil => simp [unionEntries]
  | cons a t ih =>
    intro s e he
    have : unionEntries s (a :: t) = unionEntries (addEntry s a) t := rfl
    rw [this] at he
    rcases ih (addEntry s a) e he with h | h
    · rcases mem_addEntry_elim h with h2 | h2 <;> simp [h2]
    · simp [h]

theorem lookup_cons_eq_ite {β : Type} (x : String) (v : β)
    (l : List (String × β)) (k : String) :
    ((x, v) :: l).lookup k = if k = x then some v else l.lookup k := by
  simp only [List.lookup]
  split <;> simp_all [beq_iff_eq]

theorem catDeps_append_missing : ∀ (m : List (String × List DepEntry)) (cat : String),
    m.lookup cat = none → ∀ c, catDeps (m ++ [(cat, [])]) c = catDeps m c := by
  intro m
  induction m with
  | nil =>
    intro cat _ c
    simp only [List.nil_append, catDeps, List.lookup_nil, lookup_cons_eq_ite]
    split <;> simp
  | cons kv m ih =>
    intro cat h c
    obtain ⟨a, s⟩ := kv
    rw [lookup_cons_eq_ite] at h
    by_cases hca : cat = a
    · rw [if_pos hca] at h
      cases h
    · rw [if_neg hca] at h
      simp only [List.cons_append, catDeps, lookup_cons_eq_ite]
      by_cases hc2 : c = a
      · rw [if_pos hc2, if_pos hc2]
      · rw [if_neg hc2, if_neg hc2]
        have h2 := ih cat h c
        simp only [catDeps] at h2
        exact h2

theorem dgetDefault_snd (m : List (String × List DepEntry)) (cat : String) :
    (dgetDefault m cat).2 = catDeps m cat := by
  unfold dgetDefault catDeps
  cases h : m.lookup cat <;> simp [h]

theorem dgetDefault_fst (m : List (String × List DepEntry)) (cat : String) :
    ∀ c, catDeps (dgetDefault m cat).1 c = catDeps m c := by
  intro c
  unfold dgetDefault
  cases h : m.lookup cat with
  | some s => simp
  | none => simpa using catDeps_append_missing m cat h c

theorem gdFold_spec : ∀ (cats : List String) (m : List (String × List DepEntry))
    (acc : List DepEntry),
    (∀ c, catDeps (cats.foldl gdStep (m, acc)).1 c = catDeps m c)
    ∧ (∀ n, n ∈ depNames (cats.foldl gdStep (m, acc)).2 ↔
        n ∈ depNames acc ∨ ∃ cat, cat ∈ cats ∧ n ∈ depNames (catDeps m cat))
    ∧ (∀ e, e ∈ (cats.foldl gdStep (m, acc)).2 →
        e ∈ acc ∨ ∃ cat, cat ∈ cats ∧ e ∈ catDeps m cat) := by
  intro cats
  induction cats with
  | nil => simp
  | cons cat cats ih =>
    intro m acc
    have hstep : List.foldl gdStep (m, acc) (cat :: cats) =
        List.foldl gdStep ((dgetDefault m cat).1,
          unionEntries acc (catDeps m cat)) cats := by
      simp only [List.foldl_cons]
      congr 1
      simp only [gdStep]
      rw [dgetDefault_snd]
    obtain ⟨ih1, ih2, ih3⟩ := ih (dgetDefault m cat).1 (unionEntries acc (catDeps m cat))
    refine ⟨?_, ?_, ?_⟩
    · intro c
      rw [hstep, ih1 c, dgetDefault_fst]
    · intro n
      rw [hstep, ih2 n, mem_depNames_unionEntries]
      constructor
      · rintro ((h | h) | ⟨c, hc, hn⟩)
        · tauto
        · exact Or.inr ⟨cat, by simp, h⟩
        · rw [dgetDefault_fst] at hn
          exact Or.inr ⟨c, by simp [hc], hn⟩
      · rintro (h | ⟨c, hc, hn⟩)
        · tauto
        · rcases List.mem_cons.1 hc with rfl | h
          · exact Or.inl (Or.inr hn)
          · exact Or.inr ⟨c, h, by rw [dgetDefault_fst]; exact hn⟩
    · intro e he
      rw [hstep] at he
      rcases ih3 e he with h | ⟨c, hc, hn⟩
      · rcases mem_unionEntries_elim _ _ _ h with h2 | h2
        · tauto
        · exact Or.inr ⟨cat, by simp, h2⟩
      · rw [dgetDefault_fst] at hn
        exact Or.inr ⟨c, by simp [hc], hn⟩

theorem char_eq_of_toNat_eq {a b : Char} (h : a.toNat = b.toNat) : a = b := by
  have h2 : a.val = b.val := by
    apply UInt32.eq_of_val_eq
    exact Fin.ext h
  exact Char.eq_of_val_eq h2

theorem lexLe_trans : ∀ (a b c : List Char),
    lexLe a b = true → lexLe b c = true → lexLe a c = true := by
  intro a
  induction a with
  | nil => intro b c _ _; rfl
  | cons x xs ih =>
    intro b c hab hbc
    cases b with
    | nil => simp [lexLe] at hab
    | cons y ys =>
      cases c with
      | nil => simp [lexLe] at hbc
      | cons z zs =>
        simp only [lexLe] at hab hbc ⊢
        split at hab
        · rename_i h1
          split at hbc
          · rename_i h2
            have h3 : x.toNat < z.toNat := by omega
            simp [h3]
          · split at hbc
            · cases hbc
            · rename_i h2 h4
              have h3 : x.toNat < z.toNat := by omega
              simp [h3]
        · split at hab
          · cases hab
          · rename_i h1 h5
            split at hbc
            · rename_i h2
              have h3 : x.toNat < z.toNat := by omega
              simp [h3]
            · split at hbc
              · cases hbc
              · rename_i h2 h6
                have h3 : ¬ x.toNat < z.toNat := by omega
                have h4 : ¬ z.toNat < x.toNat := by omega
                simp only [if_neg h3, if_neg h4]
                exact ih ys zs hab hbc

theorem lexLe_total : ∀ (a b : List Char), lexLe a b = true ∨ lexLe b a = true := by
  intro a
  induction a with
  | nil => intro b; exact Or.inl rfl
  | cons x xs ih =>
    intro b
    cases b with
    | nil => exact Or.inr rfl
    | cons y ys =>
      simp only [lexLe]
      rcases Nat.lt_trichotomy x.toNat y.toNat with h | h | h
      · left
        simp [h]
      · have h1 : ¬ x.toNat < y.toNat := by omega
        have h2 : ¬ y.toNat < x.toNat := by omega
        rcases ih ys with h3 | h3
        · left
          simp [h1, h2, h3]
        · right
          simp [h1, h2, h3]
      · right
        simp [h]

theorem lexLe_antisymm : ∀ (a b : List Char),
    lexLe a b = true → lexLe b a = true → a = b := by
  intro a
  induction a with
  | nil =>
    intro b hab hba
    cases b with
    | nil => rfl
    | cons y ys => simp [lexLe] at hba
  | cons x xs ih =>
    intro b hab hba
    cases b with
    | nil => simp [lexLe] at hab
    | cons y ys =>
      by_cases h1 : x.toNat < y.toNat
      · have h2 : ¬ y.toNat < x.toNat := by omega
        simp [lexLe, h1, h2] at hba
      · by_cases h2 : y.toNat < x.toNat
        · simp [lexLe, h1, h2] at hab
        · have hx : x = y := char_eq_of_toNat_eq (by omega)
          subst hx
          simp [lexLe, Nat.lt_irrefl] at hab hba
          rw [ih ys hab hba]

theorem strLeB_trans {a b c : String} (h1 : strLeB a b = true)
    (h2 : strLeB b c = true) : strLeB a c = true :=
  lexLe_trans a.data b.data c.data h1 h2

theorem strLeB_total (a b : String) : strLeB a b = true ∨ strLeB b a = true :=
  lexLe_total a.data b.data

theorem strLeB_antisymm {a b : String} (h1 : strLeB a b = true)
    (h2 : strLeB b a = true) : a = b := by
  have h3 := lexLe_antisymm a.data b.data h1 h2
  cases a
  cases b
  exact congrArg String.mk h3

theorem mem_insortStr : ∀ (l : List String) (x y : String),
    y ∈ insortStr x l ↔ y = x ∨ y ∈ l := by
  intro l
  induction l with
  | nil => simp [insortStr]
  | cons a l ih =>
    intro x y
    unfold insortStr
    split
    · simp
    · rw [List.mem_cons, ih, List.mem_cons]
      tauto

theorem mem_sortStrings : ∀ (l : List String) (y : String),
    y ∈ sortStrings l ↔ y ∈ l := by
  intro l
  induction l with
  | nil => simp [sortStrings]
  | cons a l ih =>
    intro y
    unfold sortStrings
    rw [mem_insortStr, ih, List.mem_cons]

theorem insortStr_sorted {x : String} : ∀ {l : List String},
    l.Sorted (fun a b => strLeB a b = true) →
    (insortStr x l).Sorted (fun a b => strLeB a b = true) := by
  intro l
  induction l with
  | nil =>
    intro _
    simp [insortStr]
  | cons y ys ih =>
    intro h
    rw [List.sorted_cons] at h
    obtain ⟨hy, hys⟩ := h
    unfold insortStr
    split
    · rename_i hxy
      rw [List.sorted_cons]
      refine ⟨?_, ?_⟩
      · intro b hb
        rcases List.mem_cons.1 hb with rfl | hb2
        · exact hxy
        · exact strLeB_trans hxy (hy b hb2)
      · rw [List.sorted_cons]
        exact ⟨hy, hys⟩
    · rename_i hxy
      have hyx : strLeB y x = true := by
        rcases strLeB_total x y with h | h
        · exact absurd h hxy
        · exact h
      rw [List.sorted_cons]
      refine ⟨?_, ih hys⟩
      intro b hb
      rcases (mem_insortStr ys x b).1 hb with rfl | hb2
      · exact hyx
      · exact hy b hb2

theorem sortStrings_sorted : ∀ (l : List String),
    (sortStrings l).Sorted (fun a b => strLeB a b = true) := by
  intro l
  induction l with
  | nil => simp [sortStrings]
  | cons a l ih =>
    unfold sortStrings
    exact insortStr_sorted ih

theorem insortStr_perm : ∀ (l : List String) (x : String),
    (insortStr x l).Perm (x :: l) := by
  intro l
  induction l with
  | nil => intro x; exact List.Perm.refl _
  | cons y ys ih =>
    intro x
    unfold insortStr
    split
    · exact List.Perm.refl _
    · exact ((ih x).cons y).trans (List.Perm.swap x y ys)

theorem sortStrings_perm : ∀ (l : List String), (sortStrings l).Perm l := by
  intro l
  induction l with
  | nil => exact List.Perm.refl _
  | cons a l ih =>
    unfold sortStrings
    exact (insortStr_perm (sortStrings l) a).trans (ih.cons a)

theorem sortStrings_eq_of_perm {l1 l2 : List String} (h : l1.Perm l2) :
    sortStrings l1 = sortStrings l2 := by
  have hp : (sortStrings l1).Perm (sortStrings l2) :=
    (sortStrings_perm l1).trans (h.trans (sortStrings_perm l2).symm)
  exact @List.eq_of_perm_of_sorted String (fun a b => strLeB a b = true)
    ⟨fun a b hab hba => strLeB_antisymm hab hba⟩ _ _ hp
    (sortStrings_sorted l1) (sortStrings_sorted l2)

/-- Claim C6: two `PackageDescriptor`s are equal iff their `(type, name)`
pairs match and either their paths are literally equal or their
symlink-resolved real paths are equal; with matching `(type, name)` but
genuinely different real paths they are unequal; and the hash is derived from
`(type, name)` only, so equal descriptors have equal hashes even when their
path strings differ. -/
theorem claim_c6_equality_and_hash :
    ∀ (rp : String → String) (a b : PackageDescriptor),
    (PackageDescriptor.eqPy rp a b = true ↔
      (a.type = b.type ∧ a.name = b.name ∧
        (a.path = b.path ∨ rp a.path = rp b.path)))
    ∧ (a.type = b.type → a.name = b.name → rp a.path ≠ rp b.path →
        PackageDescriptor.eqPy rp a b = false)
    ∧ (PackageDescriptor.eqPy rp a b = true →
        PackageDescriptor.hashKey a = PackageDescriptor.hashKey b) := by
  intro rp a b
  have hiff : PackageDescriptor.eqPy rp a b = true ↔
      (a.type = b.type ∧ a.name = b.name ∧
        (a.path = b.path ∨ rp a.path = rp b.path)) := by
    unfold PackageDescriptor.eqPy
    split
    · rename_i hne
      simp only [ne_eq, Prod.mk.injEq] at hne
      constructor
      · intro h
        cases h
      · rintro ⟨h1, h2, _⟩
        exact absurd ⟨h1, h2⟩ hne
    · rename_i hne
      simp only [ne_eq, Prod.mk.injEq, not_not] at hne
      obtain ⟨h1, h2⟩ := hne
      split
      · rename_i hp
        simp [h1, h2, hp]
      · rename_i hp
        simp [h1, h2, hp]
  refine ⟨hiff, ?_, ?_⟩
  · intro h1 h2 h3
    cases hq : PackageDescriptor.eqPy rp a b
    · rfl
    · rcases (hiff.1 hq).2.2 with hp | hr
      · exact absurd (congrArg rp hp) h3
      · exact absurd hr h3
  · intro h
    obtain ⟨h1, h2, _⟩ := hiff.1 h
    simp [PackageDescriptor.hashKey, h1, h2]

/-- Claim C6 witness: two descriptors with the same `(type, name)`, different
path strings but the same real path are equal with equal hash keys, and a
third descriptor with a genuinely different real path is unequal. -/
theorem claim_c6_witness :
    (PackageDescriptor.eqPy
      (fun s => if s = "/x" then "/real" else if s = "/y" then "/real" else s)
      { path := "/x", type := some "t", name := some "n",
        dependencies := [], hooks := [], metadata := [] }
      { path := "/y", type := some "t", name := some "n",
        dependencies := [], hooks := [], metadata := [] } = true)
    ∧ (PackageDescriptor.eqPy
      (fun s => if s = "/x" then "/real" else if s = "/y" then "/real" else s)
      { path := "/x", type := some "t", name := some "n",
        dependencies := [], hooks := [], metadata := [] }
      { path := "/z", type := some "t", name := some "n",
        dependencies := [], hooks := [], metadata := [] } = false)
    ∧ (PackageDescriptor.hashKey
      { path := "/x", type := some "t", name := some "n",
        dependencies := [], hooks := [], metadata := [] } =
      PackageDescriptor.hashKey
      { path := "/y", type := some "t", name := some "n",
        dependencies := [], hooks := [], metadata := [] }) := by
  refine ⟨?_, ?_, ?_⟩
  · exact (claim_c6_equality_and_hash
      (fun s => if s = "/x" then "/real" else if s = "/y" then "/real" else s)
      { path := "/x", type := some "t", name := some "n",
        dependencies := [], hooks := [], metadata := [] }
      { path := "/y", type := some "t", name := some "n",
        dependencies := [], hooks := [], metadata := [] }).1.2
      ⟨rfl, rfl, Or.inr (by decide)⟩
  · exact (claim_c6_equality_and_hash
      (fun s => if s = "/x" then "/real" else if s = "/y" then "/real" else s)
      { path := "/x", type := some "t", name := some "n",
        dependencies := [], hooks := [], metadata := [] }
      { path := "/z", type := some "t", name := some "n",
        dependencies := [], hooks := [], metadata := [] }).2.1
      rfl rfl (by decide)
  · exact (claim_c6_equality_and_hash
      (fun s => if s = "/x" then "/real" else if s = "/y" then "/real" else s)
      { path := "/x", type := some "t", name := some "n",
        dependencies := [], hooks := [], metadata := [] }
      { path := "/y", type := some "t", name := some "n",
        dependencies := [], hooks := [], metadata := [] }).2.2
      (by decide)

/-- Claim C7 counterexample: a descriptor constructed from the empty path
whose `type` and `name` are set is still reported as identifying a package,
because a `pathlib.Path` object is always truthy (an empty path string
normalizes to the path `.`); the claim demands `identifies_package()` be
false for an empty path. -/
theorem claim_c7_counterexample :
    ({ PackageDescriptor.ofPath "" with
        type := some "cmake", name := some "pkg" } :
      PackageDescriptor).identifies_package = true := rfl

/-- Claim C7 amended: `identifies_package()` is truthy iff `type` and `name`
are both set and non-empty; the stored path, being a `pathlib.Path` object,
is always truthy (an empty path string becomes `Path(".")`), so the path can
never make the result falsy. -/
theorem claim_c7_identifies_package_amended :
    ∀ (p : PackageDescriptor),
    p.identifies_package = (optStrTruthy p.type && optStrTruthy p.name) := by
  intro p
  simp [PackageDescriptor.identifies_package, pathObjTruthy]

/-- Claim C9: handling an end event whose job identifier has no recorded
start time raises a `KeyError` (a hard lookup failure), for every result code
value, the interruption sentinel included. -/
theorem claim_c9_missing_start_keyerror :
    ∀ (h : ConsoleStartEndEventHandler) (now : Nat) (ident : String)
      (rc : ResultCode),
    h.start_times.lookup ident = none →
    handlerCall h now (.ended ident rc) = .error () := by
  intro h now ident rc hl
  simp [handlerCall, hl]

/-- Claim C9 witness: an end event for a never-started job on a fresh handler
fails, even with the interruption sentinel as the result code. -/
theorem claim_c9_witness :
    (List.lookup "pkgX"
      (ConsoleStartEndEventHandler.mk []).start_times = (none : Option Nat))
    ∧ handlerCall ⟨[]⟩ 5 (.ended "pkgX" .sigintResult) = .error () :=
  ⟨rfl, claim_c9_missing_start_keyerror ⟨[]⟩ 5 "pkgX" .sigintResult rfl⟩

/-- Claim C8: a start event prints the flushed `Starting >>> id` line on
stdout and records the start time; an end event for a started job prints,
depending on the result code, `Finished <<< id [d.dds]` on stdout for a
falsy/zero code, `Aborted  <<< id` (without duration) on stdout for the
interruption sentinel, and `Failed   <<< id` with the numeric code on stderr
for any other non-zero code. -/
theorem claim_c8_reporter_lines :
    ∀ (h : ConsoleStartEndEventHandler) (now : Nat) (ident : String) (t : Nat),
    (handlerCall h now (.started ident) =
      .ok (⟨assocSet h.start_times ident now⟩,
        [⟨.stdout, "Starting >>> " ++ ident, true⟩]))
    ∧ (h.start_times.lookup ident = some t →
        (handlerCall h now (.ended ident (.code 0)) =
          .ok (h, [⟨.stdout,
            "Finished <<< " ++ ident ++ " [" ++ fmtDuration2 (now - t) ++ "s]",
            true⟩]))
        ∧ (handlerCall h now (.ended ident .sigintResult) =
          .ok (h, [⟨.stdout, "Aborted  <<< " ++ ident, true⟩]))
        ∧ (∀ n : Int, n ≠ 0 →
            handlerCall h now (.ended ident (.code n)) =
            .ok (h, [⟨.stderr,
              "Failed   <<< " ++ ident ++ "\t [ Exited with code "
                ++ toString n ++ " ]",
              true⟩]))) := by
  intro h now ident t
  refine ⟨rfl, ?_⟩
  intro hl
  refine ⟨?_, ?_, ?_⟩
  · simp [handlerCall, hl, ResultCode.falsy]
  · simp [handlerCall, hl, ResultCode.falsy, ResultCode.isSigint]
  · intro n hn
    have hb : (n == 0) = false := by simpa using hn
    simp [handlerCall, hl, ResultCode.falsy, ResultCode.isSigint, hb,
      ResultCode.display]

/-- Claim C8 witness: the four concrete lines of the claim, for job `pkgX`
started at time 1.00s and ended at 2.23s (duration 1.23s). -/
theorem claim_c8_witness :
    (handlerCall ⟨[]⟩ 100 (.started "pkgX") =
      .ok (⟨[("pkgX", 100)]⟩,
        [⟨.stdout, "Starting >>> pkgX", true⟩]))
    ∧ (handlerCall ⟨[("pkgX", 100)]⟩ 223 (.ended "pkgX" (.code 0)) =
      .ok (⟨[("pkgX", 100)]⟩,
        [⟨.stdout, "Finished <<< pkgX [1.23s]", true⟩]))
    ∧ (handlerCall ⟨[("pkgX", 100)]⟩ 223 (.ended "pkgX" .sigintResult) =
      .ok (⟨[("pkgX", 100)]⟩,
        [⟨.stdout, "Aborted  <<< pkgX", true⟩]))
    ∧ (handlerCall ⟨[("pkgX", 100)]⟩ 223 (.ended "pkgX" (.code 2)) =
      .ok (⟨[("pkgX", 100)]⟩,
        [⟨.stderr, "Failed   <<< pkgX\t [ Exited with code 2 ]", true⟩])) := by
  refine ⟨?_, ?_, ?_, ?_⟩
  · exact (claim_c8_reporter_lines ⟨[]⟩ 100 "pkgX" 0).1
  · exact ((claim_c8_reporter_lines ⟨[("pkgX", 100)]⟩ 223 "pkgX" 100).2 rfl).1
  · exact ((claim_c8_reporter_lines ⟨[("pkgX", 100)]⟩ 223 "pkgX" 100).2 rfl).2.1
  · exact ((claim_c8_reporter_lines ⟨[("pkgX", 100)]⟩ 223 "pkgX" 100).2 rfl).2.2
      2 (by decide)

theorem lookup_append_singleton_ne {β : Type} (v : β) :
    ∀ (m : List (String × β)) (cat c : String), c ≠ cat →
    (m ++ [(cat, v)]).lookup c = m.lookup c := by
  intro m
  induction m with
  | nil =>
    intro cat c hne
    simp [lookup_cons_eq_ite, hne]
  | cons kv m ih =>
    intro cat c hne
    obtain ⟨a, s⟩ := kv
    simp only [List.cons_append, lookup_cons_eq_ite]
    by_cases hca : c = a
    · rw [if_pos hca, if_pos hca]
    · rw [if_neg hca, if_neg hca]
      exact ih cat c hne

/-- Claim C10: calling `get_dependencies` with an explicit category that is
not yet a key of `dependencies` inserts that category with an empty set (the
`defaultdict` read side effect), leaving every other field and every
already-present category set unchanged; with an already-present category the
descriptor is unchanged. -/
theorem claim_c10_defaultdict_mutation :
    ∀ (p : PackageDescriptor) (cat : String),
    (p.dependencies.lookup cat = none →
      (p.get_dependencies (some [cat])).1 =
        { p with dependencies := p.dependencies ++ [(cat, [])] })
    ∧ (∀ s, p.dependencies.lookup cat = some s →
        (p.get_dependencies (some [cat])).1 = p)
    ∧ (∀ c, c ≠ cat →
        ((p.get_dependencies (some [cat])).1).dependencies.lookup c =
          p.dependencies.lookup c) := by
  intro p cat
  have hsort : sortStrings [cat] = [cat] := rfl
  have h1 : p.dependencies.lookup cat = none →
      (p.get_dependencies (some [cat])).1 =
        { p with dependencies := p.dependencies ++ [(cat, [])] } := by
    intro hl
    unfold PackageDescriptor.get_dependencies
    simp only [requestedCategories, hsort, List.foldl_cons, List.foldl_nil,
      gdStep, dgetDefault, hl]
    split <;> rfl
  have h2 : ∀ s, p.dependencies.lookup cat = some s →
      (p.get_dependencies (some [cat])).1 = p := by
    intro s hl
    unfold PackageDescriptor.get_dependencies
    simp only [requestedCategories, hsort, List.foldl_cons, List.foldl_nil,
      gdStep, dgetDefault, hl]
    split <;> rfl
  refine ⟨h1, h2, ?_⟩
  intro c hc
  cases hm : p.dependencies.lookup cat with
  | none =>
    rw [h1 hm]
    exact lookup_append_singleton_ne [] p.dependencies cat c hc
  | some s =>
    rw [h2 s hm]

/-- Claim C10 witness: reading the absent category `test` appends it with an
empty set and changes nothing else; reading the present category `run`
leaves the descriptor untouched. -/
theorem claim_c10_witness :
    ((cdescP.get_dependencies (some ["test"])).1 =
      { cdescP with dependencies := cdescP.dependencies ++ [("test", [])] })
    ∧ ((cdescP.get_dependencies (some ["run"])).1 = cdescP) :=
  ⟨(claim_c10_defaultdict_mutation cdescP "test").1 rfl,
   (claim_c10_defaultdict_mutation cdescP "run").2.1 [.bare "Q", .bare "X"] rfl⟩

theorem coerce_name (e : DepEntry) : (DepEntry.coerce e).name = e.depName := by
  cases e <;> rfl

theorem get_dependencies_error_iff (p : PackageDescriptor)
    (categories : Option (List String)) :
    (p.get_dependencies categories).2 = .error () ↔
      selfNameIn p.name
        ((sortStrings (requestedCategories p categories)).foldl gdStep
          (p.dependencies, [])).2 = true := by
  simp only [PackageDescriptor.get_dependencies]
  split
  · rename_i hc
    simp [hc]
  · rename_i hc
    simp only [Bool.not_eq_true] at hc
    simp [hc]

theorem get_dependencies_ok_val {p : PackageDescriptor}
    {categories : Option (List String)} {r : List DependencyDescriptor} :
    (p.get_dependencies categories).2 = .ok r →
      r = ((sortStrings (requestedCategories p categories)).foldl gdStep
        (p.dependencies, [])).2.map DepEntry.coerce := by
  simp only [PackageDescriptor.get_dependencies]
  split
  · intro h
    cases h
  · intro h
    injection h with h2
    exact h2.symm

/-- Claim C2: `get_dependencies` raises the assertion error exactly when the
package's own name occurs among the names of the dependencies collected for
the requested categories (whether the entry is a bare string or a typed
descriptor with that name); otherwise it returns normally. -/
theorem claim_c2_self_dependency_assert :
    ∀ (p : PackageDescriptor) (categories : Option (List String)),
    (p.get_dependencies categories).2 = .error () ↔
      ∃ n, p.name = some n ∧ ∃ cat, cat ∈ requestedCategories p categories ∧
        n ∈ depNames (catDeps p.dependencies cat) := by
  intro p categories
  rw [get_dependencies_error_iff]
  obtain ⟨-, hnames, -⟩ :=
    gdFold_spec (sortStrings (requestedCategories p categories))
      p.dependencies []
  cases hpn : p.name with
  | none =>
    simp [selfNameIn]
  | some n =>
    simp only [selfNameIn]
    rw [depNameMem_iff, hnames n]
    constructor
    · rintro (h | ⟨cat, hcat, hn⟩)
      · simp [depNames] at h
      · exact ⟨n, rfl, cat, (mem_sortStrings _ cat).1 hcat, hn⟩
    · rintro ⟨n2, hn2, cat, hcat, hn⟩
      injection hn2 with hn3
      subst hn3
      exact Or.inr ⟨cat, (mem_sortStrings _ cat).2 hcat, hn⟩

/-- Claim C2 witness: a package listing its own name as a bare string in a
requested category raises the assertion error. -/
theorem claim_c2_witness :
    (PackageDescriptor.get_dependencies
      { path := "/ws/S", type := some "t", name := some "S",
        dependencies := [("run", [.bare "S"])], hooks := [], metadata := [] }
      (some ["run"])).2 = .error () :=
  (claim_c2_self_dependency_assert
    { path := "/ws/S", type := some "t", name := some "S",
      dependencies := [("run", [.bare "S"])], hooks := [], metadata := [] }
    (some ["run"])).2
    ⟨"S", rfl, "run", by decide, by decide⟩

/-- Claim C4: with `categories=None` the result is the union over all
declared categories, with an explicit iterable the union over exactly those
categories; every element of the result is the coercion of some collected
entry (bare strings become `DependencyDescriptor(name)`, typed entries pass
through unchanged) and every entry of a requested category is represented in
the result under its name; and the result does not depend on the iteration
order of the categories. -/
theorem claim_c4_union_coercion_order :
    ∀ (p : PackageDescriptor),
    (∀ r, (p.get_dependencies none).2 = .ok r →
        (∀ dd, dd ∈ r → ∃ cat, cat ∈ requestedCategories p none ∧
          ∃ e, e ∈ catDeps p.dependencies cat ∧ DepEntry.coerce e = dd)
        ∧ (∀ cat, cat ∈ requestedCategories p none →
            ∀ e, e ∈ catDeps p.dependencies cat →
            ∃ dd, dd ∈ r ∧ dd.name = e.depName))
    ∧ (∀ cats r, (p.get_dependencies (some cats)).2 = .ok r →
        (∀ dd, dd ∈ r → ∃ cat, cat ∈ cats ∧
          ∃ e, e ∈ catDeps p.dependencies cat ∧ DepEntry.coerce e = dd)
        ∧ (∀ cat, cat ∈ cats →
            ∀ e, e ∈ catDeps p.dependencies cat →
            ∃ dd, dd ∈ r ∧ dd.name = e.depName))
    ∧ (∀ cats1 cats2, cats1.Perm cats2 →
        p.get_dependencies (some cats1) = p.get_dependencies (some cats2)) := by
  intro p
  have key : ∀ (cats : List String) (r : List DependencyDescriptor),
      r = ((sortStrings cats).foldl gdStep (p.dependencies, [])).2.map
        DepEntry.coerce →
      (∀ dd, dd ∈ r → ∃ cat, cat ∈ cats ∧
        ∃ e, e ∈ catDeps p.dependencies cat ∧ DepEntry.coerce e = dd)
      ∧ (∀ cat, cat ∈ cats →
          ∀ e, e ∈ catDeps p.dependencies cat →
          ∃ dd, dd ∈ r ∧ dd.name = e.depName) := by
    intro cats r hr
    obtain ⟨-, hnames, hentries⟩ :=
      gdFold_spec (sortStrings cats) p.dependencies []
    constructor
    · intro dd hdd
      rw [hr] at hdd
      obtain ⟨e, he, hce⟩ := List.mem_map.1 hdd
      rcases hentries e he with h | ⟨cat, hcat, hecat⟩
      · cases h
      · exact ⟨cat, (mem_sortStrings _ cat).1 hcat, e, hecat, hce⟩
    · intro cat hcat e he
      have hmem : e.depName ∈
          depNames ((sortStrings cats).foldl gdStep (p.dependencies, [])).2 := by
        rw [hnames]
        refine Or.inr ⟨cat, (mem_sortStrings _ cat).2 hcat, ?_⟩
        simp only [depNames, List.mem_map]
        exact ⟨e, he, rfl⟩
      simp only [depNames, List.mem_map] at hmem
      obtain ⟨e2, he2, hn2⟩ := hmem
      refine ⟨DepEntry.coerce e2, ?_, ?_⟩
      · rw [hr]
        exact List.mem_map.2 ⟨e2, he2, rfl⟩
      · rw [coerce_name]
        exact hn2
  refine ⟨?_, ?_, ?_⟩
  · intro r hok
    exact key (requestedCategories p none) r (get_dependencies_ok_val hok)
  · intro cats r hok
    exact key cats r (get_dependencies_ok_val hok)
  · intro cats1 cats2 hperm
    simp only [PackageDescriptor.get_dependencies, requestedCategories]
    rw [sortStrings_eq_of_perm hperm]

/-- Claim C4 witness: permuting the requested categories leaves the result
(and the mutated descriptor) unchanged, and the bare entry `b` of category
`run` is represented in the result of a `categories=None` call. -/
theorem claim_c4_witness :
    (cdescM.get_dependencies (some ["run", "build"]) =
      cdescM.get_dependencies (some ["build", "run"]))
    ∧ (∃ dd, dd ∈ [DependencyDescriptor.mk "c" [("k", "v")],
        DependencyDescriptor.mk "b" []] ∧
        dd.name = DepEntry.depName (.bare "b")) := by
  constructor
  · exact (claim_c4_union_coercion_order cdescM).2.2 ["run", "build"]
      ["build", "run"] (List.Perm.swap "build" "run" [])
  · exact ((claim_c4_union_coercion_order cdescM).1
      [DependencyDescriptor.mk "c" [("k", "v")], DependencyDescriptor.mk "b" []]
      rfl).2 "run" (by decide) (.bare "b") (by decide)

theorem wrun_get_nil_ok {w : DependencyWalker} {f : Nat}
    {cache c : DependencyCache} {acc r : List String} :
    wrun w f cache (.get [] acc) = .ok (c, r) → c = cache ∧ r = acc := by
  cases f with
  | zero => intro h; cases h
  | succ f2 =>
    intro h
    injection h with h2
    have h3 := congrArg Prod.fst h2
    have h4 := congrArg Prod.snd h2
    exact ⟨h3.symm, h4.symm⟩

theorem wrun_get_cached (w : DependencyWalker) (f : Nat) (c : DependencyCache)
    (n : String) (s : List String) (h : c.lookup n = some s) :
    wrun w (f + 2) c (.get [n] []) = .ok (c, unionNames [] s) := by
  have h1 : f + 2 = (f + 1) + 1 := rfl
  rw [h1]
  simp only [wrun, h]

/-- Claim C5: once `get_recursive_dependencies` has answered for a name, a
second call on the same walker returns the identical result set and identical
cache, and it is served from `dependency_cache`: two units of fuel suffice
regardless of the dependency graph, because only a `__missing__` expansion
consumes fuel and the name is now a cache key. -/
theorem claim_c5_memoized_idempotent :
    ∀ (w : DependencyWalker) (fuel : Nat) (c0 : DependencyCache) (n : String)
      (c1 : DependencyCache) (r1 : List String),
    w.get_recursive_dependencies fuel c0 [n] = .ok (c1, r1) →
    (w.get_recursive_dependencies 2 c1 [n] = .ok (c1, r1))
    ∧ (∃ s, c1.lookup n = some s ∧ r1 = unionNames [] s) := by
  intro w fuel c0 n c1 r1 h
  unfold DependencyWalker.get_recursive_dependencies at h ⊢
  cases fuel with
  | zero => cases h
  | succ f =>
    simp only [wrun] at h
    cases hl : c0.lookup n with
    | some v =>
      simp only [hl] at h
      obtain ⟨hc, hr⟩ := wrun_get_nil_ok h
      subst hc
      subst hr
      constructor
      · exact wrun_get_cached w 0 c1 n v hl
      · exact ⟨v, hl, rfl⟩
    | none =>
      simp only [hl] at h
      by_cases hk : w.descriptors_by_name n = []
      · rw [if_pos hk] at h
        obtain ⟨hc, hr⟩ := wrun_get_nil_ok h
        subst hr
        have hlk : c1.lookup n = some [] := by
          rw [hc, lookup_cons_eq_ite, if_pos rfl]
        constructor
        · exact wrun_get_cached w 0 c1 n [] hlk
        · exact ⟨[], hlk, rfl⟩
      · rw [if_neg hk] at h
        cases hm : wrun w f c0 (.missing (w.descriptors_by_name n) [n]) with
        | error e =>
          rw [hm] at h
          cases h
        | ok pr =>
          obtain ⟨c2, dset⟩ := pr
          rw [hm] at h
          obtain ⟨hc, hr⟩ := wrun_get_nil_ok h
          subst hr
          have hlk : c1.lookup n = some dset := by
            rw [hc, lookup_cons_eq_ite, if_pos rfl]
          constructor
          · exact wrun_get_cached w 0 c1 n dset hlk
          · exact ⟨dset, hlk, rfl⟩

/-- Claim C5 witness: resolving `P` over the acyclic fixture fills the cache;
the repeated call with only two units of fuel (not enough for any expansion)
returns the identical cache and result. -/
theorem claim_c5_witness :
    (chainWalker.get_recursive_dependencies 2
      [("P", ["P", "Q"]), ("X", []), ("Q", ["Q"])] ["P"] =
      .ok ([("P", ["P", "Q"]), ("X", []), ("Q", ["Q"])], ["P", "Q"]))
    ∧ (∃ s, List.lookup "P" [("P", ["P", "Q"]), ("X", []), ("Q", ["Q"])] = some s
        ∧ ["P", "Q"] = unionNames [] s) :=
  claim_c5_memoized_idempotent chainWalker 20 [] "P"
    [("P", ["P", "Q"]), ("X", []), ("Q", ["Q"])] ["P", "Q"] rfl

theorem cyclic_out_of_fuel : ∀ (fuel : Nat) (cache : DependencyCache)
    (acc dset : List String),
    cache.lookup "A" = none → cache.lookup "B" = none →
    (wrun cyclicWalker fuel cache (.get ["A"] acc) = .error .outOfFuel
    ∧ wrun cyclicWalker fuel cache (.get ["B"] acc) = .error .outOfFuel
    ∧ wrun cyclicWalker fuel cache (.missing [cdescA] dset) = .error .outOfFuel
    ∧ wrun cyclicWalker fuel cache (.missing [cdescB] dset) = .error .outOfFuel) := by
  intro fuel
  induction fuel with
  | zero =>
    intro cache acc dset h1 h2
    exact ⟨rfl, rfl, rfl, rfl⟩
  | succ f ih =>
    intro cache acc dset h1 h2
    have hA : cyclicWalker.descriptors_by_name "A" = [cdescA] := rfl
    have hB : cyclicWalker.descriptors_by_name "B" = [cdescB] := rfl
    have hAne : ¬ (cyclicWalker.descriptors_by_name "A" = []) := by
      rw [hA]
      exact List.cons_ne_nil _ _
    have hBne : ¬ (cyclicWalker.descriptors_by_name "B" = []) := by
      rw [hB]
      exact List.cons_ne_nil _ _
    have hgdA : (cdescA.get_dependencies cyclicWalker.categories).2 =
        .ok [⟨"B", []⟩] := rfl
    have hgdB : (cdescB.get_dependencies cyclicWalker.categories).2 =
        .ok [⟨"A", []⟩] := rfl
    refine ⟨?_, ?_, ?_, ?_⟩
    · simp only [wrun, h1]
      rw [if_neg hAne, hA, (ih cache acc ["A"] h1 h2).2.2.1]
    · simp only [wrun, h2]
      rw [if_neg hBne, hB, (ih cache acc ["B"] h1 h2).2.2.2]
    · simp only [wrun, hgdA]
      have h3 : [DependencyDescriptor.mk "B" []].map DependencyDescriptor.name =
          ["B"] := rfl
      rw [h3, (ih cache [] dset h1 h2).2.1]
    · simp only [wrun, hgdB]
      have h3 : [DependencyDescriptor.mk "A" []].map DependencyDescriptor.name =
          ["A"] := rfl
      rw [h3, (ih cache [] dset h1 h2).1]

/-- Claim C1 (divergence): on the cycle `A -> B -> A` with `run` as the
recursive category, `get_recursive_dependencies("A")` runs out of every fuel
amount: the cache is only written after the recursive expansion returns, so
the re-entrant request for `A` always misses the cache and the Python
recursion never terminates, contrary to the claimed termination with
`{A, B}`. -/
theorem claim_c1_cycle_nontermination :
    ∀ fuel : Nat,
    cyclicWalker.get_recursive_dependencies fuel [] ["A"] =
      .error .outOfFuel := by
  intro fuel
  exact (cyclic_out_of_fuel fuel [] [] [] rfl rfl).1

theorem reachP_known {w : DependencyWalker} {n x : String} :
    ReachP w n x → w.descriptors_by_name x ≠ [] := by
  rintro ⟨hk, ht⟩
  induction ht with
  | refl => exact hk
  | tail h1 h2 ih => exact h2.2

theorem reachP_head_iff {w : DependencyWalker} {n x : String}
    (hk : w.descriptors_by_name n ≠ []) :
    ReachP w n x ↔ (x = n ∨ ∃ d, d ∈ w.descriptors_by_name n ∧
      ∃ m, m ∈ w.depNamesOf d ∧ ReachP w m x) := by
  constructor
  · rintro ⟨-, ht⟩
    rcases Relation.ReflTransGen.cases_head ht with h | ⟨c, hstep, ht2⟩
    · left
      exact h.symm
    · right
      obtain ⟨⟨d, hd, hm⟩, hkc⟩ := hstep
      exact ⟨d, hd, c, hm, hkc, ht2⟩
  · rintro (rfl | ⟨d, hd, m, hm, hreach⟩)
    · exact ⟨hk, Relation.ReflTransGen.refl⟩
    · obtain ⟨hkm, ht⟩ := hreach
      exact ⟨hk, Relation.ReflTransGen.head ⟨⟨d, hd, hm⟩, hkm⟩ ht⟩

theorem wrun_characterization : ∀ (w : DependencyWalker) (fuel : Nat),
    (∀ cache deps acc c r, CacheInv w cache →
      wrun w fuel cache (.get deps acc) = .ok (c, r) →
      CacheInv w c ∧
        ∀ x, (x ∈ r ↔ x ∈ acc ∨ ∃ dep, dep ∈ deps ∧ ReachP w dep x))
    ∧ (∀ cache ds dset c d2, CacheInv w cache →
      wrun w fuel cache (.missing ds dset) = .ok (c, d2) →
      CacheInv w c ∧
        ∀ x, (x ∈ d2 ↔ x ∈ dset ∨ ∃ d, d ∈ ds ∧
          ∃ m, m ∈ w.depNamesOf d ∧ ReachP w m x)) := by
  intro w fuel
  induction fuel with
  | zero =>
    constructor
    · intro cache deps acc c r _ h
      cases h
    · intro cache ds dset c d2 _ h
      cases h
  | succ f ih =>
    obtain ⟨ihg, ihm⟩ := ih
    constructor
    · intro cache deps acc c r hinv h
      cases deps with
      | nil =>
        obtain ⟨hc, hr⟩ := wrun_get_nil_ok h
        subst hc
        subst hr
        refine ⟨hinv, ?_⟩
        intro x
        simp
      | cons dep rest =>
        simp only [wrun] at h
        cases hl : cache.lookup dep with
        | some v =>
          simp only [hl] at h
          obtain ⟨hc2, hiff⟩ := ihg cache rest (unionNames acc v) c r hinv h
          refine ⟨hc2, ?_⟩
          intro x
          rw [hiff x, mem_unionNames]
          have hv := hinv dep v hl
          constructor
          · rintro ((hx | hx) | ⟨d2, hd2, hr2⟩)
            · exact Or.inl hx
            · exact Or.inr ⟨dep, by simp, (hv x).1 hx⟩
            · exact Or.inr ⟨d2, by simp [hd2], hr2⟩
          · rintro (hx | ⟨d2, hd2, hr2⟩)
            · exact Or.inl (Or.inl hx)
            · rcases List.mem_cons.1 hd2 with rfl | hd3
              · exact Or.inl (Or.inr ((hv x).2 hr2))
              · exact Or.inr ⟨d2, hd3, hr2⟩
        | none =>
          simp only [hl] at h
          by_cases hk : w.descriptors_by_name dep = []
          · rw [if_pos hk] at h
            have hinv2 : CacheInv w ((dep, []) :: cache) := by
              intro k v hkv
              rw [lookup_cons_eq_ite] at hkv
              by_cases hkd : k = dep
              · subst hkd
                rw [if_pos rfl] at hkv
                injection hkv with hv2
                subst hv2
                intro x
                simp only [List.not_mem_nil, false_iff]
                rintro ⟨hk2, -⟩
                exact hk2 hk
              · rw [if_neg hkd] at hkv
                exact hinv k v hkv
            obtain ⟨hcfin, hiff⟩ :=
              ihg ((dep, []) :: cache) rest (unionNames acc []) c r hinv2 h
            refine ⟨hcfin, ?_⟩
            intro x
            rw [hiff x, unionNames_nil]
            constructor
            · rintro (hx | ⟨d2, hd2, hr2⟩)
              · exact Or.inl hx
              · exact Or.inr ⟨d2, by simp [hd2], hr2⟩
            · rintro (hx | ⟨d2, hd2, hr2⟩)
              · exact Or.inl hx
              · rcases List.mem_cons.1 hd2 with rfl | hd3
                · exact absurd hk hr2.1
                · exact Or.inr ⟨d2, hd3, hr2⟩
          · rw [if_neg hk] at h
            cases hm : wrun w f cache (.missing (w.descriptors_by_name dep) [dep]) with
            | error e =>
              rw [hm] at h
              cases h
            | ok pr =>
              obtain ⟨c2, dset⟩ := pr
              rw [hm] at h
              obtain ⟨hinvc2, hdset⟩ :=
                ihm cache (w.descriptors_by_name dep) [dep] c2 dset hinv hm
              have hdsetReach : ∀ x, x ∈ dset ↔ ReachP w dep x := by
                intro x
                rw [hdset x, reachP_head_iff hk]
                simp
              have hinv3 : CacheInv w ((dep, dset) :: c2) := by
                intro k v hkv
                rw [lookup_cons_eq_ite] at hkv
                by_cases hkd : k = dep
                · subst hkd
                  rw [if_pos rfl] at hkv
                  injection hkv with hv2
                  subst hv2
                  exact hdsetReach
                · rw [if_neg hkd] at hkv
                  exact hinvc2 k v hkv
              obtain ⟨hcfin, hiff⟩ :=
                ihg ((dep, dset) :: c2) rest (unionNames acc dset) c r hinv3 h
              refine ⟨hcfin, ?_⟩
              intro x
              rw [hiff x, mem_unionNames]
              constructor
              · rintro ((hx | hx) | ⟨d2, hd2, hr2⟩)
                · exact Or.inl hx
                · exact Or.inr ⟨dep, by simp, (hdsetReach x).1 hx⟩
                · exact Or.inr ⟨d2, by simp [hd2], hr2⟩
              · rintro (hx | ⟨d2, hd2, hr2⟩)
                · exact Or.inl (Or.inl hx)
                · rcases List.mem_cons.1 hd2 with rfl | hd3
                  · exact Or.inl (Or.inr ((hdsetReach x).2 hr2))
                  · exact Or.inr ⟨d2, hd3, hr2⟩
    · intro cache ds dset c d2 hinv h
      cases ds with
      | nil =>
        simp only [wrun] at h
        injection h with h2
        injection h2 with hc hd
        subst hc
        subst hd
        refine ⟨hinv, ?_⟩
        intro x
        simp
      | cons d ds2 =>
        cases hgd : (d.get_dependencies w.categories).2 with
        | error e =>
          simp only [wrun, hgd] at h
          cases h
        | ok deps =>
          cases hio : wrun w f cache (.get (deps.map DependencyDescriptor.name) []) with
          | error e =>
            simp only [wrun, hgd, hio] at h
            cases h
          | ok pr =>
            obtain ⟨c2, rd⟩ := pr
            simp only [wrun, hgd, hio] at h
            obtain ⟨hinv2, hrd⟩ :=
              ihg cache (deps.map DependencyDescriptor.name) [] c2 rd hinv hio
            obtain ⟨hinv3, hd2⟩ := ihm c2 ds2 (unionNames dset rd) c d2 hinv2 h
            have hnames : w.depNamesOf d = deps.map DependencyDescriptor.name := by
              simp [DependencyWalker.depNamesOf, hgd]
            have hrdx : ∀ x, x ∈ rd ↔ ∃ m, m ∈ w.depNamesOf d ∧ ReachP w m x := by
              intro y
              rw [hrd y, hnames]
              simp
            refine ⟨hinv3, ?_⟩
            intro x
            rw [hd2 x, mem_unionNames]
            constructor
            · rintro ((hx | hx) | ⟨d3, hd3, hm3⟩)
              · exact Or.inl hx
              · exact Or.inr ⟨d, by simp, (hrdx x).1 hx⟩
              · exact Or.inr ⟨d3, by simp [hd3], hm3⟩
            · rintro (hx | ⟨d3, hd3, hm3⟩)
              · exact Or.inl (Or.inl hx)
              · rcases List.mem_cons.1 hd3 with rfl | hd4
                · exact Or.inl (Or.inr ((hrdx x).2 hm3))
                · exact Or.inr ⟨d3, hd4, hm3⟩

/-- Claim C3: a dependency name that is not a key of `descriptors_by_name`
resolves to the empty closure without error; for any resolved query the
result is exactly the set of names reachable from the queried name through
known packages (so a known name is itself in its closure, and unknown names
are excluded throughout). -/
theorem claim_c3_closure_characterization :
    ∀ (w : DependencyWalker) (n : String) (fuel : Nat),
    (w.descriptors_by_name n = [] →
      w.get_recursive_dependencies (fuel + 2) [] [n] = .ok ([(n, [])], []))
    ∧ (∀ c r, w.get_recursive_dependencies fuel [] [n] = .ok (c, r) →
        (∀ x, x ∈ r ↔ ReachP w n x)
        ∧ (w.descriptors_by_name n ≠ [] → n ∈ r)
        ∧ (∀ x, x ∈ r → w.descriptors_by_name x ≠ [])) := by
  intro w n fuel
  constructor
  · intro hk
    show wrun w ((fuel + 1) + 1) [] (.get [n] []) = .ok ([(n, [])], [])
    simp only [wrun, List.lookup]
    rw [if_pos hk]
    rfl
  · intro c r h
    have hinv0 : CacheInv w [] := by
      intro k v hkv
      cases hkv
    obtain ⟨-, hiff⟩ := (wrun_characterization w fuel).1 [] [n] [] c r hinv0 h
    have hr : ∀ x, x ∈ r ↔ ReachP w n x := by
      intro x
      rw [hiff x]
      simp
    refine ⟨hr, ?_, ?_⟩
    · intro hk
      exact (hr n).2 ⟨hk, Relation.ReflTransGen.refl⟩
    · intro x hx
      exact reachP_known ((hr x).1 hx)

/-- Claim C3 witness: the unknown name `X` resolves to the empty set without
error, and the closure of the known name `P` contains `P` itself. -/
theorem claim_c3_witness :
    (chainWalker.get_recursive_dependencies 10 [] ["X"] = .ok ([("X", [])], []))
    ∧ ("P" ∈ (["P", "Q"] : List String)) := by
  constructor
  · exact (claim_c3_closure_characterization chainWalker "X" 8).1 rfl
  · exact ((claim_c3_closure_characterization chainWalker "P" 20).2
      [("P", ["P", "Q"]), ("X", []), ("Q", ["Q"])] ["P", "Q"] rfl).2.1
      (by decide)

end ColconCore
